import Mathlib

/-!
Verification development for the multi-asset performance chart
(`main.py`): a pandas price table prepared by
`data.ffill().dropna(axis=1, how="all").sort_index()` and a Dash
callback `update_graph(selected_range)` that slices the table by the
selected dates, rebases every column to its first sliced value via
`(filtered / baseline - 1) * 100`, melts to long form and renders a
chart plus a date-range label.

The embedding is shallow: DataFrame cells are modelled by `Val`, an
IEEE-754-style value (a rational number, NaN, or a signed infinity),
where `Val.nan` doubles as pandas' missing value (pandas represents
missing float data as NaN).  A DataFrame is a `PriceTable`: a date
index plus named columns of equal length.
-/

/-- A calendar date, as carried by the DataFrame's DatetimeIndex. -/
structure Date where
  year : ℕ
  month : ℕ
  day : ℕ
deriving DecidableEq, Repr

/-- A sort/comparison key for dates; for calendar dates (month, day < 100)
it orders exactly like the chronological order used by pandas Timestamps. -/
def Date.key (d : Date) : ℕ := d.year * 10000 + d.month * 100 + d.day

/-- Default date used for out-of-range `getD` accesses (never hit for the
valid index ranges the slider produces). -/
def d0 : Date := ⟨0, 0, 0⟩

/-- A DataFrame cell: a finite floating-point price (modelled as a
rational), NaN (which pandas also uses for "missing"), or a signed
infinity (which float division by zero produces). -/
inductive Val where
  | num (q : ℚ)
  | nan
  | inf
  | neginf
deriving DecidableEq, Repr

/-- Float division, as numpy broadcasts it over DataFrame cells:
division by zero yields a signed infinity (or NaN for 0/0), NaN
propagates. -/
def Val.div : Val → Val → Val
  | Val.nan, _ => Val.nan
  | _, Val.nan => Val.nan
  | Val.num a, Val.num b =>
      if b = 0 then (if a = 0 then Val.nan else if 0 < a then Val.inf else Val.neginf)
      else Val.num (a / b)
  | Val.inf, Val.num b => if b < 0 then Val.neginf else Val.inf
  | Val.neginf, Val.num b => if b < 0 then Val.inf else Val.neginf
  | Val.num _, Val.inf => Val.num 0
  | Val.num _, Val.neginf => Val.num 0
  | Val.inf, Val.inf => Val.nan
  | Val.inf, Val.neginf => Val.nan
  | Val.neginf, Val.inf => Val.nan
  | Val.neginf, Val.neginf => Val.nan

/-- Float subtraction over cells (used for the scalar `- 1`). -/
def Val.sub : Val → Val → Val
  | Val.nan, _ => Val.nan
  | _, Val.nan => Val.nan
  | Val.num a, Val.num b => Val.num (a - b)
  | Val.inf, Val.num _ => Val.inf
  | Val.neginf, Val.num _ => Val.neginf
  | Val.num _, Val.inf => Val.neginf
  | Val.num _, Val.neginf => Val.inf
  | Val.inf, Val.inf => Val.nan
  | Val.inf, Val.neginf => Val.inf
  | Val.neginf, Val.inf => Val.neginf
  | Val.neginf, Val.neginf => Val.nan

/-- Float multiplication over cells (used for the scalar `* 100` and for
scaling a column by a constant). -/
def Val.mul : Val → Val → Val
  | Val.nan, _ => Val.nan
  | _, Val.nan => Val.nan
  | Val.num a, Val.num b => Val.num (a * b)
  | Val.inf, Val.num b => if b = 0 then Val.nan else if 0 < b then Val.inf else Val.neginf
  | Val.num a, Val.inf => if a = 0 then Val.nan else if 0 < a then Val.inf else Val.neginf
  | Val.neginf, Val.num b => if b = 0 then Val.nan else if 0 < b then Val.neginf else Val.inf
  | Val.num a, Val.neginf => if a = 0 then Val.nan else if 0 < a then Val.neginf else Val.inf
  | Val.inf, Val.inf => Val.inf
  | Val.inf, Val.neginf => Val.neginf
  | Val.neginf, Val.inf => Val.neginf
  | Val.neginf, Val.neginf => Val.inf

/-- The in-memory table behind the global `data` DataFrame: an ordered
date index and named price columns (one `List Val` per instrument). -/
structure PriceTable where
  dates : List Date
  cols : List (String × List Val)
deriving DecidableEq, Repr

/-- Well-formedness of a DataFrame: every column has one cell per index
entry. -/
abbrev Aligned (t : PriceTable) : Prop :=
  ∀ c ∈ t.cols, c.2.length = t.dates.length

/-- The date index is strictly increasing (pandas DatetimeIndex from the
provider: ascending, unique). -/
abbrev SortedDates (t : PriceTable) : Prop :=
  t.dates.Pairwise (fun a b => a.key < b.key)

/-! ## Data Preparation: `data.ffill().dropna(axis=1, how="all").sort_index()` -/

/-- One step of forward-fill: a NaN cell takes the carried value, a
non-NaN cell replaces the carry. -/
def fillVal (carry v : Val) : Val := if v = Val.nan then carry else v

/-- Pandas `Series.ffill` on one column: each NaN cell is replaced by the most
recent earlier non-NaN value (the carry starts as NaN, so leading NaNs
remain NaN). -/
def ffillCol (carry : Val) : List Val → List Val
  | [] => []
  | v :: vs => fillVal carry v :: ffillCol (fillVal carry v) vs

/-- Step `data.ffill()`: forward-fill every column along the date axis. -/
def ffillT (t : PriceTable) : PriceTable :=
  ⟨t.dates, t.cols.map (fun c => (c.1, ffillCol Val.nan c.2))⟩

/-- Step `data.dropna(axis=1, how="all")`: keep exactly the columns holding at
least one non-NaN cell. -/
def dropEmptyT (t : PriceTable) : PriceTable :=
  ⟨t.dates, t.cols.filter (fun c => c.2.any (fun v => decide (v ≠ Val.nan)))⟩

/-- The permutation of row positions realising `sort_index()`: the row
positions sorted by date key (stable sort; for the unique dates of a
DatetimeIndex any correct sort gives the same list). -/
def sortPerm (dates : List Date) : List ℕ :=
  List.insertionSort
    (fun i j => (dates.getD i d0).key ≤ (dates.getD j d0).key)
    (List.range dates.length)

/-- Step `data.sort_index()`: reorder the rows (the date index together with
every column) into ascending date order. -/
def sortRowsT (t : PriceTable) : PriceTable :=
  ⟨(sortPerm t.dates).map (fun i => t.dates.getD i d0),
   t.cols.map (fun c => (c.1, (sortPerm t.dates).map (fun i => c.2.getD i Val.nan)))⟩

/-- Line 35 of `main.py`:
`data = data.ffill().dropna(axis=1, how="all").sort_index()`. -/
def prepare (t : PriceTable) : PriceTable := sortRowsT (dropEmptyT (ffillT t))

/-! ## The render callback `update_graph` -/

/-- The `.loc[start_date:end_date]` row condition: dates within the
closed interval. -/
def between (lo hi x : Date) : Bool := decide (lo.key ≤ x.key ∧ x.key ≤ hi.key)

/-- The date index of `filtered = data.loc[start_date:end_date]`. -/
def locDates (dates : List Date) (lo hi : Date) : List Date :=
  dates.filter (between lo hi)

/-- One column of `filtered = data.loc[start_date:end_date]`: the cells
whose row date lies in the closed interval. -/
def locCol (dates : List Date) (lo hi : Date) (vals : List Val) : List Val :=
  ((dates.zip vals).filter (fun q => between lo hi q.1)).map Prod.snd

/-- The rebasing arithmetic applied to one cell against its column
baseline: `(value / baseline - 1) * 100`. -/
def perfCell (v b : Val) : Val := Val.mul (Val.sub (Val.div v b) (Val.num 1)) (Val.num 100)

/-- One column of `performance = (filtered / baseline - 1) * 100`, where
`baseline = filtered.iloc[0]` is the column's first sliced cell. -/
def perfVals (vals : List Val) : List Val :=
  vals.map (fun v => perfCell v (vals.headD Val.nan))

/-- All columns of the `performance` DataFrame computed by
`update_graph` for selected indices `(s, e)`. -/
def perfCols (t : PriceTable) (s e : ℕ) : List (String × List Val) :=
  t.cols.map (fun c =>
    (c.1, perfVals (locCol t.dates (t.dates.getD s d0) (t.dates.getD e d0) c.2)))

/-- Zero-pad a number to two digits, as `strftime` does for `%m`/`%d`. -/
def pad2 (n : ℕ) : String := if n < 10 then "0" ++ toString n else toString n

/-- Zero-pad a year to four digits, as `strftime` does for `%Y`. -/
def pad4 (n : ℕ) : String :=
  if n < 10 then "000" ++ toString n
  else if n < 100 then "00" ++ toString n
  else if n < 1000 then "0" ++ toString n
  else toString n

/-- Python `d.strftime("%Y-%m-%d")` (also the text of `d.date()`). -/
def fmtDate (d : Date) : String := pad4 d.year ++ "-" ++ pad2 d.month ++ "-" ++ pad2 d.day

/-- The two outputs of the callback: the figure's data (the melted
long-form rows `(Date, Asset, Performance)` and the title) and the texts
of the three spans of the `selected-range-display` label. -/
structure RenderOutput where
  melted : List (Date × String × Val)
  title : String
  labelSpans : List String
deriving DecidableEq, Repr

/-- The body of `update_graph(selected_range)` (lines 105-152 of
`main.py`): look up the start and end dates, slice the table, rebase
every column to the slice's first row, melt column by column into
`(Date, Asset, Performance)` rows, and build the title and the
start-arrow-end label. -/
def update_graph (t : PriceTable) (r : ℕ × ℕ) : RenderOutput :=
  let sd := t.dates.getD r.1 d0
  let ed := t.dates.getD r.2 d0
  let fd := locDates t.dates sd ed
  let pcols := perfCols t r.1 r.2
  { melted := pcols.flatMap (fun c => (fd.zip c.2).map (fun q => (q.1, c.1, q.2)))
    title := "Performance from " ++ fmtDate sd
    labelSpans := [fmtDate sd, "  →  ", fmtDate ed] }

/-- The callback as the Dash app runs it: it reads the module-level
table, returns the two outputs, and performs no assignment to the
table — modelled by threading the ambient state explicitly. -/
def update_graph_state (t : PriceTable) (r : ℕ × ℕ) : RenderOutput × PriceTable :=
  (update_graph t r, t)

/-! ## Label slicing on a sorted index is positional slicing -/

/-- Filtering a strictly key-sorted list to a closed key band bounded by
the keys of its `s`-th and `e`-th elements returns exactly the
contiguous positional slice `[s..e]`. -/
theorem filter_band_eq {α : Type} (key : α → ℕ) (l : List α)
    (hl : l.Pairwise (fun x y => key x < key y)) (s e : ℕ) (hse : s ≤ e)
    (hs : s < l.length) (he : e < l.length) (ka kb : ℕ)
    (hka : ka = key l[s]) (hkb : kb = key l[e]) :
    l.filter (fun x => decide (ka ≤ key x ∧ key x ≤ kb))
      = (l.drop s).take (e + 1 - s) := by
  have hkey : ∀ i j, ∀ (hi : i < l.length) (hj : j < l.length), i < j →
      key l[i] < key l[j] :=
    fun i j hi hj hij => List.pairwise_iff_getElem.mp hl i j hi hj hij
  have hmono : ∀ i j, ∀ (hi : i < l.length) (hj : j < l.length), i ≤ j →
      key l[i] ≤ key l[j] := by
    intro i j hi hj hij
    rcases Nat.eq_or_lt_of_le hij with h | h
    · subst h; exact Nat.le_refl _
    · exact Nat.le_of_lt (hkey i j hi hj h)
  have hsplit : l = l.take s ++ ((l.drop s).take (e + 1 - s) ++ l.drop (e + 1)) := by
    have h2 : (l.drop s).drop (e + 1 - s) = l.drop (e + 1) := by
      rw [List.drop_drop]; congr 1; omega
    rw [← h2, List.take_append_drop, List.take_append_drop]
  have hA : (l.take s).filter (fun x => decide (ka ≤ key x ∧ key x ≤ kb)) = [] := by
    refine List.filter_eq_nil_iff.mpr ?_
    intro x hx
    obtain ⟨i, hi, hget⟩ := List.mem_iff_getElem.mp hx
    have hitake : i < s := by
      have := hi; rw [List.length_take] at this; omega
    have hilen : i < l.length := Nat.lt_of_lt_of_le hitake (Nat.le_of_lt hs)
    have hx2 : x = l[i] := by rw [← hget, List.getElem_take]
    subst hx2
    simp only [decide_eq_true_eq, not_and, not_le]
    intro hax
    exact absurd hax (Nat.not_le_of_lt (by rw [hka]; exact hkey i s hilen hs hitake))
  have hB : ((l.drop s).take (e + 1 - s)).filter
      (fun x => decide (ka ≤ key x ∧ key x ≤ kb)) = (l.drop s).take (e + 1 - s) := by
    refine List.filter_eq_self.mpr ?_
    intro x hx
    obtain ⟨j, hj, hget⟩ := List.mem_iff_getElem.mp hx
    have hjk : j < e + 1 - s := by
      have := hj; rw [List.length_take] at this; omega
    have hjlen : s + j < l.length := by
      have := hj; rw [List.length_take, List.length_drop] at this; omega
    have hx2 : x = l[s + j] := by
      rw [← hget, List.getElem_take, List.getElem_drop]
    subst hx2
    simp only [decide_eq_true_eq]
    constructor
    · rw [hka]; exact hmono s (s + j) hs hjlen (Nat.le_add_right s j)
    · rw [hkb]; exact hmono (s + j) e hjlen he (by omega)
  have hC : (l.drop (e + 1)).filter (fun x => decide (ka ≤ key x ∧ key x ≤ kb)) = [] := by
    refine List.filter_eq_nil_iff.mpr ?_
    intro x hx
    obtain ⟨j, hj, hget⟩ := List.mem_iff_getElem.mp hx
    have hjlen : e + 1 + j < l.length := by
      have := hj; rw [List.length_drop] at this; omega
    have hx2 : x = l[e + 1 + j] := by rw [← hget, List.getElem_drop]
    subst hx2
    simp only [decide_eq_true_eq, not_and, not_le]
    intro _
    rw [hkb]; exact hkey e (e + 1 + j) he hjlen (by omega)
  nth_rewrite 1 [hsplit]
  rw [List.filter_append, List.filter_append, hA, hB, hC]
  simp

/-- Mapping `Prod.snd` over a zip recovers the second list when it is no
longer than the first. -/
theorem map_snd_zip_of_le {α β : Type} :
    ∀ (l : List α) (m : List β), m.length ≤ l.length → (l.zip m).map Prod.snd = m
  | _, [], _ => by simp
  | [], _ :: _, h => by simp at h
  | _ :: l, _ :: m, h => by
      simpa using map_snd_zip_of_le l m (by simpa using h)

/-- On a table with a strictly increasing date index, the date index of
`data.loc[dates[s]:dates[e]]` is the positional window `[s..e]` of the
index. -/
theorem locDates_eq_slice (t : PriceTable) (hS : SortedDates t) (s e : ℕ)
    (hse : s ≤ e) (he : e < t.dates.length) :
    locDates t.dates (t.dates.getD s d0) (t.dates.getD e d0)
      = (t.dates.drop s).take (e + 1 - s) := by
  have hs : s < t.dates.length := Nat.lt_of_le_of_lt hse he
  unfold locDates between
  rw [List.getD_eq_getElem _ _ hs, List.getD_eq_getElem _ _ he]
  exact filter_band_eq Date.key t.dates hS s e hse hs he _ _ rfl rfl

/-- On a table with a strictly increasing date index, each column of
`data.loc[dates[s]:dates[e]]` is the positional window `[s..e]` of that
column. -/
theorem locCol_eq_slice (t : PriceTable) (hS : SortedDates t) (s e : ℕ)
    (hse : s ≤ e) (he : e < t.dates.length)
    (vals : List Val) (hlen : vals.length = t.dates.length) :
    locCol t.dates (t.dates.getD s d0) (t.dates.getD e d0) vals
      = (vals.drop s).take (e + 1 - s) := by
  have hs : s < t.dates.length := Nat.lt_of_le_of_lt hse he
  have hzlen : (t.dates.zip vals).length = t.dates.length := by
    rw [List.length_zip, hlen]; omega
  have hzs : s < (t.dates.zip vals).length := by omega
  have hze : e < (t.dates.zip vals).length := by omega
  have hpw : (t.dates.zip vals).Pairwise (fun x y => x.1.key < y.1.key) := by
    refine List.pairwise_iff_getElem.mpr ?_
    intro i j hi hj hij
    rw [List.getElem_zip, List.getElem_zip]
    exact List.pairwise_iff_getElem.mp hS i j (by omega) (by omega) hij
  have hband := filter_band_eq (fun q => q.1.key) (t.dates.zip vals) hpw s e hse hzs hze
    ((t.dates.getD s d0).key) ((t.dates.getD e d0).key)
    (by rw [List.getElem_zip, List.getD_eq_getElem _ _ hs])
    (by rw [List.getElem_zip, List.getD_eq_getElem _ _ he])
  unfold locCol between
  rw [hband, List.map_take, List.map_drop, map_snd_zip_of_le t.dates vals (by omega)]

/-- The first element of the positional window `[s..e]` of a list is its
`s`-th element. -/
theorem slice_headD {α : Type} (d : α) (l : List α) (s e : ℕ) (hse : s ≤ e)
    (hs : s < l.length) :
    ((l.drop s).take (e + 1 - s)).headD d = l.getD s d := by
  rw [List.drop_eq_getElem_cons hs]
  have hk : e + 1 - s = (e - s) + 1 := by omega
  rw [hk, List.take_succ_cons, List.headD_cons, List.getD_eq_getElem _ _ hs]

/-! ## Forward-fill and preparation lemmas -/

/-- Forward-filling preserves the column length. -/
theorem ffillCol_length : ∀ (carry : Val) (l : List Val),
    (ffillCol carry l).length = l.length
  | _, [] => rfl
  | carry, v :: vs => by
      simp only [ffillCol, List.length_cons, ffillCol_length (fillVal carry v) vs]

/-- Cell `i` of a forward-filled column is the fold of `fillVal` over the
prefix ending at `i`. -/
theorem ffillCol_getD : ∀ (carry : Val) (l : List Val) (i : ℕ), i < l.length →
    (ffillCol carry l).getD i Val.nan = (l.take (i + 1)).foldl fillVal carry
  | _, [], i, h => by simp at h
  | carry, v :: vs, 0, _ => by simp [ffillCol]
  | carry, v :: vs, i + 1, h => by
      simp only [ffillCol, List.getD_cons_succ, List.take_succ_cons, List.foldl_cons]
      exact ffillCol_getD (fillVal carry v) vs i (by simpa using h)

/-- Folding `fillVal` keeps the last non-NaN value of the list, or the
carry when every value is NaN. -/
theorem foldl_fill_eq : ∀ (l : List Val) (carry : Val),
    l.foldl fillVal carry = (l.filter (fun v => decide (v ≠ Val.nan))).getLastD carry
  | [], _ => rfl
  | v :: vs, carry => by
      rw [List.foldl_cons, List.filter_cons]
      by_cases hv : v = Val.nan
      · subst hv
        rw [show fillVal carry Val.nan = carry from by simp [fillVal]]
        rw [if_neg (by simp)]
        exact foldl_fill_eq vs carry
      · rw [show fillVal carry v = v from by simp [fillVal, hv]]
        rw [if_pos (by simp [hv]), List.getLastD_cons]
        exact foldl_fill_eq vs v

/-- The defaulted last element of a nonempty list is a member. -/
theorem getLastD_mem_of_ne_nil {α : Type} : ∀ (d : α) (l : List α), l ≠ [] →
    l.getLastD d ∈ l
  | _, [], h => absurd rfl h
  | d, a :: l, _ => by
      rw [List.getLastD_cons]
      cases l with
      | nil => simp
      | cons b m =>
          exact List.mem_cons_of_mem a (getLastD_mem_of_ne_nil a (b :: m) (by simp))

/-- Reading a list back through `getD` at the positions `0, ..., n-1`
reproduces the list. -/
theorem range_map_getD {α : Type} (d : α) (l : List α) :
    (List.range l.length).map (fun i => l.getD i d) = l := by
  refine List.ext_getElem (by simp) ?_
  intro i h1 h2
  simp only [List.getElem_map, List.getElem_range]
  exact List.getD_eq_getElem l d h2

/-- On an already sorted date index the sorting permutation is the
identity. -/
theorem sortPerm_eq_range (dates : List Date)
    (hS : dates.Pairwise (fun a b => a.key < b.key)) :
    sortPerm dates = List.range dates.length := by
  unfold sortPerm
  refine List.Sorted.insertionSort_eq ?_
  refine List.pairwise_iff_getElem.mpr ?_
  intro i j hi hj hij
  have hi2 : i < dates.length := by simpa using hi
  have hj2 : j < dates.length := by simpa using hj
  simp only [List.getElem_range]
  rw [List.getD_eq_getElem _ _ hi2, List.getD_eq_getElem _ _ hj2]
  exact Nat.le_of_lt (List.pairwise_iff_getElem.mp hS i j hi2 hj2 hij)

/-- On a well-formed table whose raw dates already arrive sorted (as the
provider delivers them), `prepare` is forward-fill followed by dropping
the all-NaN columns, and the final `sort_index()` moves nothing. -/
theorem prepare_eq_of_sorted (t : PriceTable) (hA : Aligned t) (hS : SortedDates t) :
    prepare t = ⟨t.dates,
      (t.cols.map (fun c => (c.1, ffillCol Val.nan c.2))).filter
        (fun c => c.2.any (fun v => decide (v ≠ Val.nan)))⟩ := by
  unfold prepare sortRowsT dropEmptyT ffillT
  dsimp only
  rw [sortPerm_eq_range t.dates hS, range_map_getD]
  have hcols : ∀ c ∈ (t.cols.map (fun c => (c.1, ffillCol Val.nan c.2))).filter
      (fun c => c.2.any (fun v => decide (v ≠ Val.nan))),
      (c.1, (List.range t.dates.length).map (fun i => c.2.getD i Val.nan)) = c := by
    intro c hc
    have hc2 : c ∈ t.cols.map (fun c => (c.1, ffillCol Val.nan c.2)) :=
      List.mem_of_mem_filter hc
    obtain ⟨c0, hc0, hceq⟩ := List.mem_map.mp hc2
    have hlen : c.2.length = t.dates.length := by
      rw [← hceq]
      dsimp only
      rw [ffillCol_length]
      exact hA c0 hc0
    rw [← hlen, range_map_getD]
  rw [List.map_congr_left hcols]
  simp

/-! ## Concrete tables used by witnesses and counterexamples -/

/-- The spec's running example: dates 2021-09-27..29, column "Gold" =
[100, 110, 90]. -/
def goldT : PriceTable :=
  ⟨[⟨2021, 9, 27⟩, ⟨2021, 9, 28⟩, ⟨2021, 9, 29⟩],
   [("Gold", [Val.num 100, Val.num 110, Val.num 90])]⟩

/-- A raw table with a gap to forward-fill. -/
def gapT : PriceTable :=
  ⟨[⟨2021, 9, 27⟩, ⟨2021, 9, 28⟩, ⟨2021, 9, 29⟩],
   [("Gold", [Val.num 100, Val.nan, Val.nan])]⟩

/-- A table whose only column has no observation on the first date
(instrument listed later), so its baseline at index 0 is missing. -/
def leadNanT : PriceTable :=
  ⟨[⟨2021, 9, 27⟩, ⟨2021, 9, 28⟩], [("Sol", [Val.nan, Val.num 1])]⟩

/-- A table whose first column has price 0 on the first date. -/
def zeroBaseT : PriceTable :=
  ⟨[⟨2021, 9, 27⟩, ⟨2021, 9, 28⟩],
   [("X", [Val.num 0, Val.num 100]), ("Y", [Val.num 1, Val.num 2])]⟩

/-- A two-column table for render-output witnesses. -/
def twoColT : PriceTable :=
  ⟨[⟨2021, 9, 27⟩, ⟨2021, 9, 28⟩, ⟨2021, 9, 29⟩],
   [("A", [Val.num 1, Val.num 2, Val.num 3]), ("B", [Val.num 4, Val.num 5, Val.num 6])]⟩

/-- A raw table with one real column and one fully empty column. -/
def mixT : PriceTable :=
  ⟨[⟨2021, 9, 27⟩, ⟨2021, 9, 28⟩],
   [("X", [Val.num 5, Val.nan]), ("Y", [Val.nan, Val.nan])]⟩

/-! ## Cellwise facts about the rebasing arithmetic -/

/-- A NaN (missing) baseline makes every rebased cell NaN. -/
theorem perfCell_nan_baseline (v : Val) : perfCell v Val.nan = Val.nan := by
  cases v <;> rfl

/-- A zero baseline never yields a finite number: each rebased cell is
NaN or a signed infinity. -/
theorem perfCell_zero_baseline (v : Val) :
    perfCell v (Val.num 0) = Val.nan ∨ perfCell v (Val.num 0) = Val.inf ∨
      perfCell v (Val.num 0) = Val.neginf := by
  cases v with
  | nan => left; rfl
  | inf => right; left; rfl
  | neginf => right; right; rfl
  | num a =>
      rcases lt_trichotomy a 0 with h | h | h
      · right; right
        unfold perfCell
        have hdiv : Val.div (Val.num a) (Val.num 0) = Val.neginf := by
          simp [Val.div, h.ne, h.not_lt]
        rw [hdiv]
        norm_num [Val.sub, Val.mul]
      · left
        subst h
        unfold perfCell
        have hdiv : Val.div (Val.num 0) (Val.num 0) = Val.nan := by
          simp [Val.div]
        rw [hdiv]
        rfl
      · right; left
        unfold perfCell
        have hdiv : Val.div (Val.num a) (Val.num 0) = Val.inf := by
          simp [Val.div, h.ne', h]
        rw [hdiv]
        norm_num [Val.sub, Val.mul]

/-! ## Claims C1 and C2: behaviour of the baseline row and degenerate baselines -/

/-- C1 (amended): for every well-formed table, valid selected range and
surviving column whose baseline value at `start_index` is a non-missing,
non-zero number, the rendered performance series of that column starts
at exactly 0.0; its pair is one of the render's output columns. -/
theorem perf_start_zero (t : PriceTable) (hA : Aligned t) (hS : SortedDates t)
    (s e : ℕ) (hse : s ≤ e) (he : e < t.dates.length)
    (c : String × List Val) (hc : c ∈ t.cols) (b : ℚ)
    (hb : c.2.getD s Val.nan = Val.num b) (hb0 : b ≠ 0) :
    (c.1, perfVals (locCol t.dates (t.dates.getD s d0) (t.dates.getD e d0) c.2))
        ∈ perfCols t s e
    ∧ (perfVals (locCol t.dates (t.dates.getD s d0) (t.dates.getD e d0) c.2)).getD 0
        Val.nan = Val.num 0 := by
  have hs : s < t.dates.length := Nat.lt_of_le_of_lt hse he
  have hlen : c.2.length = t.dates.length := hA c hc
  have hslice := locCol_eq_slice t hS s e hse he c.2 hlen
  refine ⟨List.mem_map.mpr ⟨c, hc, rfl⟩, ?_⟩
  rw [hslice]
  have hhead : ((c.2.drop s).take (e + 1 - s)).headD Val.nan = Val.num b := by
    rw [slice_headD Val.nan c.2 s e hse (by omega)]
    exact hb
  have hne : (c.2.drop s).take (e + 1 - s) ≠ [] := by
    intro hnil
    rw [hnil] at hhead
    exact Val.noConfusion hhead
  obtain ⟨w, rest, hcons⟩ := List.exists_cons_of_ne_nil hne
  rw [hcons] at hhead
  rw [List.headD_cons] at hhead
  rw [hcons]
  simp only [perfVals, List.headD_cons, List.map_cons, List.getD_cons_zero]
  rw [hhead]
  unfold perfCell
  simp only [Val.div, if_neg hb0, div_self hb0, Val.sub, Val.mul]
  norm_num

/-- C1 counterexample: `prepare` applied to a raw table whose only
column is unobserved on the first date yields a surviving column (it has
a non-missing value), yet for the valid full range (0, 1) the computed
performance at row 0 is missing, not 0.0. -/
theorem perf_start_zero_counterexample :
    (prepare leadNanT).dates.length = 2
    ∧ (∃ v ∈ ((prepare leadNanT).cols.getD 0 ("", [])).2, v ≠ Val.nan)
    ∧ ((perfCols (prepare leadNanT) 0 1).getD 0 ("", [])).2.getD 0 Val.nan ≠ Val.num 0 := by
  decide

/-- C1 witness: on the Gold table with range (1, 2) the baseline is
110 ≠ 0 and the series starts at exactly 0.0. -/
theorem perf_start_zero_witness :
    ("Gold", perfVals (locCol goldT.dates (goldT.dates.getD 1 d0) (goldT.dates.getD 2 d0)
        [Val.num 100, Val.num 110, Val.num 90])) ∈ perfCols goldT 1 2
    ∧ (perfVals (locCol goldT.dates (goldT.dates.getD 1 d0) (goldT.dates.getD 2 d0)
        [Val.num 100, Val.num 110, Val.num 90])).getD 0 Val.nan = Val.num 0 :=
  perf_start_zero goldT (by decide) (by decide) 1 2 (by decide) (by decide)
    ("Gold", [Val.num 100, Val.num 110, Val.num 90]) (by decide) 110 (by decide)
    (by norm_num)

/-- C2 (amended): every table column yields an output column of the
render; if its baseline at `start_index` is missing, its entire
performance series is missing; if its baseline is zero, every value of
its performance series is missing or a signed infinity (never a finite
number); each column is computed only from its own cells and baseline. -/
theorem baseline_degenerate (t : PriceTable) (s e : ℕ)
    (c : String × List Val) (hc : c ∈ t.cols) :
    ((c.1, perfVals (locCol t.dates (t.dates.getD s d0) (t.dates.getD e d0) c.2))
        ∈ perfCols t s e)
    ∧ ((locCol t.dates (t.dates.getD s d0) (t.dates.getD e d0) c.2).headD Val.nan
          = Val.nan →
        ∀ v ∈ perfVals (locCol t.dates (t.dates.getD s d0) (t.dates.getD e d0) c.2),
          v = Val.nan)
    ∧ ((locCol t.dates (t.dates.getD s d0) (t.dates.getD e d0) c.2).headD Val.nan
          = Val.num 0 →
        ∀ v ∈ perfVals (locCol t.dates (t.dates.getD s d0) (t.dates.getD e d0) c.2),
          v = Val.nan ∨ v = Val.inf ∨ v = Val.neginf) := by
  refine ⟨List.mem_map.mpr ⟨c, hc, rfl⟩, ?_, ?_⟩
  · intro hbase v hv
    obtain ⟨w, _, hweq⟩ := List.mem_map.mp hv
    rw [← hweq, hbase]
    exact perfCell_nan_baseline w
  · intro hbase v hv
    obtain ⟨w, _, hweq⟩ := List.mem_map.mp hv
    rw [← hweq, hbase]
    exact perfCell_zero_baseline w

/-- C2 counterexample: a column with price 0 at the selected start and
100 next has a zero baseline, yet its computed performance series
contains a positive infinity — it is not missing/gapped as a whole. -/
theorem baseline_degenerate_counterexample :
    (locCol zeroBaseT.dates (zeroBaseT.dates.getD 0 d0) (zeroBaseT.dates.getD 1 d0)
        [Val.num 0, Val.num 100]).headD Val.nan = Val.num 0
    ∧ Val.inf ∈ ((perfCols zeroBaseT 0 1).getD 0 ("", [])).2 := by
  decide

/-- C2 witness: on the table whose only column has a missing baseline,
the rebased cell at row 1 is missing. -/
theorem baseline_degenerate_witness :
    (perfVals (locCol leadNanT.dates (leadNanT.dates.getD 0 d0) (leadNanT.dates.getD 1 d0)
        [Val.nan, Val.num 1])).getD 1 Val.nan = Val.nan := by
  have h := (baseline_degenerate leadNanT 0 1 ("Sol", [Val.nan, Val.num 1]) (by decide)).2.1
    (by decide)
  refine h _ ?_
  decide

/-! ## Claims C4 and C6: Data Preparation -/

/-- C4: on a well-formed raw table whose dates arrive sorted, every
surviving column enters the prepared table forward-filled, and every
raw-missing cell of it equals the nearest earlier non-missing raw value
in the same column — or stays missing when no earlier value exists
(the right side is exactly that value, with NaN as the no-earlier-value
default). -/
theorem prepare_forward_fill (t : PriceTable) (hA : Aligned t) (hS : SortedDates t)
    (c : String × List Val) (hc : c ∈ t.cols) (hsv : ∃ v ∈ c.2, v ≠ Val.nan) :
    (c.1, ffillCol Val.nan c.2) ∈ (prepare t).cols
    ∧ ∀ i, i < c.2.length → c.2.getD i Val.nan = Val.nan →
        (ffillCol Val.nan c.2).getD i Val.nan
          = ((c.2.take i).filter (fun v => decide (v ≠ Val.nan))).getLastD Val.nan := by
  constructor
  · rw [prepare_eq_of_sorted t hA hS]
    refine List.mem_filter.mpr ⟨List.mem_map.mpr ⟨c, hc, rfl⟩, ?_⟩
    obtain ⟨v, hv, hvn⟩ := hsv
    obtain ⟨i0, hi0, hget⟩ := List.mem_iff_getElem.mp hv
    refine List.any_eq_true.mpr ?_
    have hflen : i0 < (ffillCol Val.nan c.2).length := by
      rw [ffillCol_length]
      exact hi0
    refine ⟨(ffillCol Val.nan c.2).getD i0 Val.nan, ?_, ?_⟩
    · rw [List.getD_eq_getElem _ _ hflen]
      exact List.getElem_mem hflen
    · rw [ffillCol_getD Val.nan c.2 i0 hi0, foldl_fill_eq]
      have hvtake : v ∈ c.2.take (i0 + 1) := by
        refine List.mem_iff_getElem.mpr ⟨i0, ?_, ?_⟩
        · rw [List.length_take]
          omega
        · rw [List.getElem_take]
          exact hget
      have hvmem : v ∈ (c.2.take (i0 + 1)).filter (fun v => decide (v ≠ Val.nan)) :=
        List.mem_filter.mpr ⟨hvtake, by simpa using hvn⟩
      have hmem := getLastD_mem_of_ne_nil Val.nan _ (List.ne_nil_of_mem hvmem)
      exact (List.mem_filter.mp hmem).2
  · intro i hi hmiss
    rw [ffillCol_getD Val.nan c.2 i hi, foldl_fill_eq]
    have hgi : c.2[i] = Val.nan := by
      rw [← List.getD_eq_getElem c.2 Val.nan hi]
      exact hmiss
    have htake : c.2.take (i + 1) = c.2.take i ++ [Val.nan] := by
      rw [List.take_succ, List.getElem?_eq_getElem hi, hgi]
      rfl
    rw [htake, List.filter_append]
    simp

/-- C4 witness: forward-filling [100, NaN, NaN] keeps the column in the
prepared table and fills cell 2 with 100, the nearest earlier observed
value. -/
theorem prepare_forward_fill_witness :
    ("Gold", ffillCol Val.nan [Val.num 100, Val.nan, Val.nan]) ∈ (prepare gapT).cols
    ∧ (ffillCol Val.nan [Val.num 100, Val.nan, Val.nan]).getD 2 Val.nan
      = ((([Val.num 100, Val.nan, Val.nan] : List Val).take 2).filter
          (fun v => decide (v ≠ Val.nan))).getLastD Val.nan := by
  have h := prepare_forward_fill gapT (by decide) (by decide)
    ("Gold", [Val.num 100, Val.nan, Val.nan]) (by decide) (by decide)
  exact ⟨h.1, h.2 2 (by decide) (by decide)⟩

/-- C6: after preparation of any well-formed raw table, every remaining
column holds at least one non-missing value. -/
theorem prepare_no_empty_columns (t : PriceTable) (hA : Aligned t) :
    ∀ c ∈ (prepare t).cols, ∃ v ∈ c.2, v ≠ Val.nan := by
  intro c hc
  unfold prepare sortRowsT at hc
  dsimp only at hc
  obtain ⟨c0, hc0, hceq⟩ := List.mem_map.mp hc
  unfold dropEmptyT ffillT at hc0
  dsimp only at hc0
  have hkeep := (List.mem_filter.mp hc0).2
  obtain ⟨c1, hc1, hc1eq⟩ := List.mem_map.mp (List.mem_filter.mp hc0).1
  have hlen0 : c0.2.length = t.dates.length := by
    rw [← hc1eq]
    dsimp only
    rw [ffillCol_length]
    exact hA c1 hc1
  obtain ⟨v0, hv0, hv0n⟩ := List.any_eq_true.mp hkeep
  obtain ⟨i0, hi0, hgi⟩ := List.mem_iff_getElem.mp hv0
  refine ⟨c0.2.getD i0 Val.nan, ?_, ?_⟩
  · rw [← hceq]
    dsimp only
    refine List.mem_map.mpr ⟨i0, ?_, rfl⟩
    unfold sortPerm
    refine (List.perm_insertionSort _ _).mem_iff.mpr ?_
    refine List.mem_range.mpr ?_
    show i0 < t.dates.length
    omega
  · rw [List.getD_eq_getElem _ _ hi0, hgi]
    exact of_decide_eq_true hv0n

/-- C6 witness: preparing a table with one real column and one fully
empty column leaves only columns with an observation. -/
theorem prepare_no_empty_columns_witness :
    ("X", [Val.num 5, Val.num 5]) ∈ (prepare mixT).cols
    ∧ ∃ v ∈ ("X", [Val.num 5, Val.num 5]).2, v ≠ Val.nan := by
  refine ⟨by decide, ?_⟩
  exact prepare_no_empty_columns mixT (by decide) ("X", [Val.num 5, Val.num 5]) (by decide)

/-! ## Claim C3: range containment of the rendered dates -/

/-- Mapping `Prod.fst` over a zip recovers the first list when it is no
longer than the second. -/
theorem map_fst_zip_of_le {α β : Type} :
    ∀ (l : List α) (m : List β), l.length ≤ m.length → (l.zip m).map Prod.fst = l
  | [], _, _ => by simp
  | _ :: _, [], h => by simp at h
  | _ :: l, _ :: m, h => by
      simpa using map_fst_zip_of_le l m (by simpa using h)

/-- C3: for every well-formed table with at least one column and every
valid selected range, the dates appearing in the melted render output
are exactly the window `table.dates[s..e]` (no date outside it, none of
it missing), and that window is in strictly ascending date order. -/
theorem range_containment (t : PriceTable) (hA : Aligned t) (hS : SortedDates t)
    (s e : ℕ) (hse : s ≤ e) (he : e < t.dates.length) (hcne : t.cols ≠ []) :
    (∀ d : Date, d ∈ (update_graph t (s, e)).melted.map (fun r => r.1)
        ↔ d ∈ (t.dates.drop s).take (e + 1 - s))
    ∧ ((t.dates.drop s).take (e + 1 - s)).Pairwise (fun a b => a.key < b.key) := by
  have hfd := locDates_eq_slice t hS s e hse he
  have hwlen : (locDates t.dates (t.dates.getD s d0) (t.dates.getD e d0)).length
      = (e + 1 - s) ⊓ (t.dates.length - s) := by
    rw [hfd, List.length_take, List.length_drop]
  have hcollen : ∀ c ∈ t.cols,
      (perfVals (locCol t.dates (t.dates.getD s d0) (t.dates.getD e d0) c.2)).length
        = (e + 1 - s) ⊓ (t.dates.length - s) := by
    intro c hc
    rw [perfVals, List.length_map, locCol_eq_slice t hS s e hse he c.2 (hA c hc),
      List.length_take, List.length_drop, hA c hc]
  have hcdates : ∀ p ∈ perfCols t s e,
      ((locDates t.dates (t.dates.getD s d0) (t.dates.getD e d0)).zip p.2).map Prod.fst
        = locDates t.dates (t.dates.getD s d0) (t.dates.getD e d0) := by
    intro p hp
    obtain ⟨c, hc, hceq⟩ := List.mem_map.mp hp
    refine map_fst_zip_of_le _ _ ?_
    rw [← hceq]
    dsimp only
    rw [hcollen c hc, hwlen]
  constructor
  · intro d
    constructor
    · intro hd
      obtain ⟨r, hr, hrd⟩ := List.mem_map.mp hd
      simp only [update_graph] at hr
      obtain ⟨p, hp, hrp⟩ := List.mem_flatMap.mp hr
      obtain ⟨q, hq, hqr⟩ := List.mem_map.mp hrp
      have hq1 : q.1 ∈ locDates t.dates (t.dates.getD s d0) (t.dates.getD e d0) := by
        have hq2 : (q.1, q.2) ∈
            (locDates t.dates (t.dates.getD s d0) (t.dates.getD e d0)).zip p.2 := hq
        exact (List.of_mem_zip hq2).1
      rw [← hrd, ← hqr]
      rw [hfd] at hq1
      exact hq1
    · intro hd
      obtain ⟨p, hp⟩ := List.exists_mem_of_ne_nil (perfCols t s e)
        (by simpa [perfCols, List.map_eq_nil_iff] using hcne)
      have hdf : d ∈ ((locDates t.dates (t.dates.getD s d0) (t.dates.getD e d0)).zip
          p.2).map Prod.fst := by
        rw [hcdates p hp, hfd]
        exact hd
      obtain ⟨q, hq, hqd⟩ := List.mem_map.mp hdf
      refine List.mem_map.mpr ⟨(q.1, p.1, q.2), ?_, hqd⟩
      simp only [update_graph]
      refine List.mem_flatMap.mpr ⟨p, hp, ?_⟩
      exact List.mem_map.mpr ⟨q, hq, rfl⟩
  · exact List.Pairwise.sublist ((List.take_sublist _ _).trans (List.drop_sublist _ _)) hS

/-- C3 witness: on a concrete two-column table with range (0, 1), date
2021-09-28 lies in the output exactly as it lies in the window, and the
window is ascending. -/
theorem range_containment_witness :
    ((⟨2021, 9, 28⟩ : Date) ∈ (update_graph twoColT (0, 1)).melted.map (fun r => r.1)
      ↔ (⟨2021, 9, 28⟩ : Date) ∈ (twoColT.dates.drop 0).take (1 + 1 - 0))
    ∧ ((twoColT.dates.drop 0).take (1 + 1 - 0)).Pairwise (fun a b => a.key < b.key) := by
  have h := range_containment twoColT (by decide) (by decide) 0 1 (by decide) (by decide)
    (by decide)
  exact ⟨h.1 ⟨2021, 9, 28⟩, h.2⟩

/-! ## Claims C5, C7, C8, C9 -/

/-- C5: rendering the full range (0, 2) of the table with dates
2021-09-27..29 and column "Gold" = [100, 110, 90] yields the performance
series [0.0, 10.0, -10.0]. -/
theorem gold_full_range :
    perfCols goldT 0 2 = [("Gold", [Val.num 0, Val.num 10, Val.num (-10)])] := by
  norm_num [perfCols, perfVals, locCol, between, perfCell, Val.div, Val.sub, Val.mul,
    Date.key, d0, goldT]

/-- C7: the render is a pure function of the selected range and the
table — equal inputs give identical chart data and identical label, with
no dependence on anything else. -/
theorem render_pure (t1 t2 : PriceTable) (r1 r2 : ℕ × ℕ) (ht : t1 = t2) (hr : r1 = r2) :
    update_graph t1 r1 = update_graph t2 r2
    ∧ update_graph_state t1 r1 = update_graph_state t2 r2 := by
  subst ht
  subst hr
  exact ⟨rfl, rfl⟩

/-- C7 witness: re-rendering the Gold table with the same range gives
bit-identical outputs. -/
theorem render_pure_witness :
    update_graph goldT (0, 2) = update_graph goldT (0, 2)
    ∧ update_graph_state goldT (0, 2) = update_graph_state goldT (0, 2) :=
  render_pure goldT goldT (0, 2) (0, 2) rfl rfl

/-- C8: executing the render callback leaves the price table unchanged —
the threaded table state after the call is exactly the table before it. -/
theorem render_table_unchanged (t : PriceTable) (r : ℕ × ℕ) :
    (update_graph_state t r).2 = t := rfl

/-- C9: for indices within the table, the display label is the start
date and the end date, each formatted YYYY-MM-DD, separated by the arrow
glyph. -/
theorem label_format (t : PriceTable) (s e : ℕ) (hs : s < t.dates.length)
    (he : e < t.dates.length) :
    (update_graph t (s, e)).labelSpans
      = [fmtDate (t.dates.get ⟨s, hs⟩), "  →  ", fmtDate (t.dates.get ⟨e, he⟩)] := by
  simp only [update_graph]
  rw [List.getD_eq_getElem _ _ hs, List.getD_eq_getElem _ _ he]
  simp [List.get_eq_getElem]

/-- C9 witness: on the Gold table with range (1, 2) the label reads
"2021-09-28  →  2021-09-29". -/
theorem label_format_witness :
    (update_graph goldT (1, 2)).labelSpans = ["2021-09-28", "  →  ", "2021-09-29"] := by
  rw [label_format goldT 1 2 (by decide) (by decide)]
  decide

/-! ## Claim C10: scale invariance of the rebasing transform -/

/-- Label slicing commutes with a cellwise map of the column. -/
theorem locCol_map (dates : List Date) (lo hi : Date) (f : Val → Val) (vals : List Val) :
    locCol dates lo hi (vals.map f) = (locCol dates lo hi vals).map f := by
  unfold locCol
  rw [List.zip_map_right, List.filter_map, List.map_map, List.map_map]
  rfl

/-- Rebasing is unchanged cellwise when the cell and the baseline are
both scaled by the same positive constant. -/
theorem perfCell_scale (c b : ℚ) (hb0 : b ≠ 0) (hc : 0 < c) (v : Val) :
    perfCell (Val.mul (Val.num c) v) (Val.mul (Val.num c) (Val.num b))
      = perfCell v (Val.num b) := by
  have hc0 : c ≠ 0 := ne_of_gt hc
  have hcb : c * b ≠ 0 := mul_ne_zero hc0 hb0
  have hsign : (c * b < 0) = (b < 0) := by
    apply propext
    constructor
    · intro h
      by_contra hb
      push_neg at hb
      exact absurd (mul_nonneg (le_of_lt hc) hb) (not_le.mpr h)
    · intro h
      exact mul_neg_of_pos_of_neg hc h
  cases v with
  | num a =>
      show perfCell (Val.num (c * a)) (Val.num (c * b)) = _
      unfold perfCell
      have h1 : Val.div (Val.num (c * a)) (Val.num (c * b)) = Val.num (a / b) := by
        simp only [Val.div, if_neg hcb]
        rw [mul_div_mul_left a b hc0]
      have h2 : Val.div (Val.num a) (Val.num b) = Val.num (a / b) := by
        simp only [Val.div, if_neg hb0]
      rw [h1, h2]
  | nan => rfl
  | inf =>
      have hm : Val.mul (Val.num c) Val.inf = Val.inf := by
        simp [Val.mul, hc0, hc]
      have hmb : Val.mul (Val.num c) (Val.num b) = Val.num (c * b) := rfl
      rw [hm, hmb]
      unfold perfCell
      simp only [Val.div, hsign]
  | neginf =>
      have hm : Val.mul (Val.num c) Val.neginf = Val.neginf := by
        simp [Val.mul, hc0, hc]
      have hmb : Val.mul (Val.num c) (Val.num b) = Val.num (c * b) := rfl
      rw [hm, hmb]
      unfold perfCell
      simp only [Val.div, hsign]

/-- C10: for any selected range and any column whose sliced baseline is
a non-zero number, multiplying every price of the column by a positive
constant leaves the rendered performance series of that column
unchanged. -/
theorem perf_scale_invariant (t : PriceTable) (s e : ℕ) (vals : List Val) (b c : ℚ)
    (hb : (locCol t.dates (t.dates.getD s d0) (t.dates.getD e d0) vals).headD Val.nan
      = Val.num b)
    (hb0 : b ≠ 0) (hc : 0 < c) :
    perfVals (locCol t.dates (t.dates.getD s d0) (t.dates.getD e d0)
        (vals.map (fun v => Val.mul (Val.num c) v)))
      = perfVals (locCol t.dates (t.dates.getD s d0) (t.dates.getD e d0) vals) := by
  rw [locCol_map]
  have hne : locCol t.dates (t.dates.getD s d0) (t.dates.getD e d0) vals ≠ [] := by
    intro hnil
    rw [hnil] at hb
    exact Val.noConfusion hb
  obtain ⟨w, rest, hcons⟩ := List.exists_cons_of_ne_nil hne
  rw [hcons] at hb
  rw [List.headD_cons] at hb
  subst hb
  rw [hcons]
  unfold perfVals
  simp only [List.map_cons, List.headD_cons, List.map_map]
  refine List.cons_eq_cons.mpr ⟨perfCell_scale c b hb0 hc (Val.num b), ?_⟩
  refine List.map_congr_left ?_
  intro v _
  exact perfCell_scale c b hb0 hc v

/-- C10 witness: doubling the Gold column leaves its full-range
performance series unchanged. -/
theorem perf_scale_invariant_witness :
    perfVals (locCol goldT.dates (goldT.dates.getD 0 d0) (goldT.dates.getD 2 d0)
        (([Val.num 100, Val.num 110, Val.num 90] : List Val).map
          (fun v => Val.mul (Val.num 2) v)))
      = perfVals (locCol goldT.dates (goldT.dates.getD 0 d0) (goldT.dates.getD 2 d0)
          [Val.num 100, Val.num 110, Val.num 90]) :=
  perf_scale_invariant goldT 0 2 [Val.num 100, Val.num 110, Val.num 90] 100 2
    (by norm_num [locCol, between, Date.key, goldT, d0]) (by norm_num) (by norm_num)
